import Mathlib

/-!
Shallow embedding of the AppleJournaltoMD converter (src/main.go) and proofs
about the claims of its specification.

Strings are modelled as `List Char` (`Str`). Go library functions used by the
program (`strings.TrimSpace`, `strings.SplitN`, `filepath.Clean`, `filepath.Join`,
`filepath.Base`, `filepath.Dir`, `filepath.Ext`, `time.Parse` for the two layouts
the program uses) are embedded directly, restricted to the behaviour the program
exercises ('/' is the path separator, ASCII whitespace).
-/

namespace AppleJournal

abbrev Str := List Char

/-- ASCII whitespace, as in Go's `unicode.IsSpace` restricted to ASCII
(' ', '\t', '\n', '\v', '\f', '\r'). -/
def goIsSpace (c : Char) : Bool :=
  c = ' ' || c = '\t' || c = '\n' || c = Char.ofNat 11 || c = Char.ofNat 12 || c = '\r'

/-- Go `strings.TrimSpace`: drop whitespace from both ends. -/
def goTrim (l : Str) : Str :=
  ((l.dropWhile goIsSpace).reverse.dropWhile goIsSpace).reverse

/-- Split a string at the first occurrence of character `ch`.
`none` when `ch` does not occur. Models Go `strings.SplitN(s, ch, 2)`:
`some (before, after)` corresponds to a 2-element result. -/
def splitFirstCh (ch : Char) : Str → Option (Str × Str)
  | [] => none
  | c :: cs =>
    if c = ch then some ([], cs)
    else (splitFirstCh ch cs).map (fun p => (c :: p.1, p.2))

/-- ASCII lower-casing of a single character (Go's case-insensitive matching
in the `time` package treats ASCII letters case-insensitively). -/
def toLowerCh (c : Char) : Char :=
  if 'A' ≤ c ∧ c ≤ 'Z' then Char.ofNat (c.toNat + 32) else c

/- ### filepath.Clean / Join / Base / Dir / Ext (unix separator) -/

/-- Split on '/' characters (used to implement `filepath.Clean`). -/
def splitSlash (l : Str) : List Str :=
  l.foldr
    (fun c acc =>
      match acc with
      | [] => if c = '/' then [[], []] else [[c]]
      | a :: as => if c = '/' then [] :: a :: as else (c :: a) :: as)
    [[]]

/-- The element-processing loop of Go `filepath.Clean`: `stack` is the list of
kept path elements in reverse order. -/
def cleanComps (rooted : Bool) : List Str → List Str → List Str
  | stack, [] => stack.reverse
  | stack, c :: cs =>
    if c = [] ∨ c = ['.'] then cleanComps rooted stack cs
    else if c = ['.', '.'] then
      match stack with
      | [] =>
        if rooted then cleanComps rooted [] cs
        else cleanComps rooted [['.', '.']] cs
      | top :: rest =>
        if top = ['.', '.'] then cleanComps rooted (c :: top :: rest) cs
        else cleanComps rooted rest cs
    else cleanComps rooted (c :: stack) cs

/-- Go `filepath.Clean` for unix paths. -/
def goClean (p : Str) : Str :=
  if p = [] then ['.']
  else
    let rooted := p.head? = some '/'
    let comps := cleanComps rooted [] (splitSlash p)
    let out := List.intercalate ['/'] comps
    let out' := if rooted then '/' :: out else out
    if out' = [] then ['.'] else out'

/-- Go `filepath.Join` on two elements: empty elements are dropped, the rest
joined with '/' and cleaned; all-empty input gives the empty string. -/
def goJoin2 (a b : Str) : Str :=
  if a = [] ∧ b = [] then []
  else if a = [] then goClean b
  else if b = [] then goClean a
  else goClean (a ++ '/' :: b)

/-- Go `filepath.Base`: last element of the path after stripping trailing
slashes; "." for the empty path, "/" for all-slash paths. -/
def goBase (p : Str) : Str :=
  if p = [] then ['.']
  else
    let q := (p.reverse.dropWhile (· = '/')).reverse
    if q = [] then ['/']
    else (q.reverse.takeWhile (· ≠ '/')).reverse

/-- Go `filepath.Dir`: everything up to and including the final slash,
cleaned; "." when there is no slash. -/
def goDir (p : Str) : Str :=
  goClean (p.reverse.dropWhile (· ≠ '/')).reverse

/-- Strip the Go `filepath.Ext` extension: the suffix starting at the last
dot in the final path element, removed if present. Models
`strings.TrimSuffix(fn, filepath.Ext(fn))`. -/
def goStripExt (fn : Str) : Str :=
  let revTail := fn.reverse.takeWhile (fun c => c ≠ '.' && c ≠ '/')
  if (fn.reverse.drop revTail.length).head? = some '.' then
    fn.take (fn.length - revTail.length - 1)
  else fn

/- ### Date parsing: time.Parse for layouts "January 2, 2006" and "Jan 2, 2006" -/

/-- Case-insensitive prefix match, as in the Go `time` package's `match`
function used by `lookup` (ASCII case-insensitive). `matchCI name v` is true
iff `name` is a case-insensitive prefix of `v`. -/
def matchCI : Str → Str → Bool
  | [], _ => true
  | _ :: _, [] => false
  | a :: as, b :: bs => toLowerCh a == toLowerCh b && matchCI as bs

def monthNamesFull : List Str :=
  ["January", "February", "March", "April", "May", "June", "July",
   "August", "September", "October", "November", "December"].map String.data

def monthNamesAbbrev : List Str :=
  ["Jan", "Feb", "Mar", "Apr", "May", "Jun", "Jul",
   "Aug", "Sep", "Oct", "Nov", "Dec"].map String.data

/-- Go `time` package `lookup`: find the first name in `names` that is a
case-insensitive prefix of `v`; return its 1-based index and the rest of `v`. -/
def lookupMonthAux : List Str → Nat → Str → Option (Nat × Str)
  | [], _, _ => none
  | n :: ns, i, v =>
    if matchCI n v then some (i, v.drop n.length)
    else lookupMonthAux ns (i + 1) v

def lookupMonth (names : List Str) (v : Str) : Option (Nat × Str) :=
  lookupMonthAux names 1 v

def isDig (c : Char) : Bool := decide ('0' ≤ c ∧ c ≤ '9')

def digVal (c : Char) : Nat := c.toNat - 48

/-- Go `getnum(value, fixed=false)` for the layout element "2": one or two
digits. -/
def getnum2 : Str → Option (Nat × Str)
  | [] => none
  | c :: cs =>
    if isDig c then
      match cs with
      | d :: ds => if isDig d then some (digVal c * 10 + digVal d, ds) else some (digVal c, cs)
      | [] => some (digVal c, [])
    else none

/-- Go parsing of the layout element "2006": exactly four digits. -/
def getnum4 : Str → Option (Nat × Str)
  | a :: b :: c :: d :: rest =>
    if isDig a && isDig b && isDig c && isDig d then
      some (((digVal a * 10 + digVal b) * 10 + digVal c) * 10 + digVal d, rest)
    else none
  | _ => none

/-- Consume one expected literal character. -/
def expectCh (c : Char) : Str → Option Str
  | x :: xs => if x = c then some xs else none
  | [] => none

def isLeapYear (y : Nat) : Bool := y % 4 = 0 && (y % 100 ≠ 0 || y % 400 = 0)

/-- Go `daysIn(m, year)`. -/
def daysIn (m y : Nat) : Nat :=
  if m = 2 then (if isLeapYear y then 29 else 28)
  else if m = 4 ∨ m = 6 ∨ m = 9 ∨ m = 11 then 30
  else 31

/-- `time.Parse` of one "Month 2, 2006"-shaped layout (month names given by
`names`) against `v`: month lookup, literal ' ', 1-2 digit day, literal ", ",
4-digit year, no trailing text, day-of-month range check.
Result `(y, m, d)`. -/
def parseMonthDayYear (names : List Str) (v : Str) : Option (Nat × Nat × Nat) :=
  match lookupMonth names v with
  | none => none
  | some (m, r1) =>
    match expectCh ' ' r1 with
    | none => none
    | some r2 =>
      match getnum2 r2 with
      | none => none
      | some (d, r3) =>
        match expectCh ',' r3 with
        | none => none
        | some r4 =>
          match expectCh ' ' r4 with
          | none => none
          | some r5 =>
            match getnum4 r5 with
            | none => none
            | some (y, r6) =>
              if r6 = [] then
                if 1 ≤ d ∧ d ≤ daysIn m y then some (y, m, d) else none
              else none

/-- Try the program's two layouts in order: "January 2, 2006" then
"Jan 2, 2006". -/
def parseLayouts (v : Str) : Option (Nat × Nat × Nat) :=
  (parseMonthDayYear monthNamesFull v).orElse (fun _ => parseMonthDayYear monthNamesAbbrev v)

/-- The model of `time.Time` as the program uses it: calendar date plus hour.
The program only ever builds times in UTC, so no location is modelled.
The Go zero value `time.Time{}` is 1 January year 1, 00:00 UTC. -/
structure GoTime where
  year : Nat
  month : Nat
  day : Nat
  hour : Nat
deriving DecidableEq, Repr

def zeroTime : GoTime := ⟨1, 1, 1, 0⟩

/-- The normalization step of `parseAppleDate`: strip everything up to and
including the first comma (and surrounding space) when a comma is present. -/
def normDate (s : Str) : Str :=
  match splitFirstCh ',' s with
  | some (_, rest) => goTrim rest
  | none => s

/-- `parseAppleDate` from src/main.go. On success: noon UTC at the parsed
year/month/day. On failure: the Go zero time together with an error; the
`Option Str` component carries the string interpolated into the error message
(`"failed to parse date string '%s' ..."`), which is the normalized `dateStr`
at that point in the function. -/
def parseAppleDate (s : Str) : GoTime × Option Str :=
  let ds := normDate s
  match parseLayouts ds with
  | some (y, m, d) => (⟨y, m, d, 12⟩, none)
  | none => (zeroTime, some ds)

/- ### Entry document model and the Markdown assembler (processEntryHTML) -/

/-- One item matched by `div.gridItem.assetType_photo img.asset_image` inside
an asset grid. `src` is the value of the img's `src` attribute, `none` when
the attribute is absent. -/
structure GridItem where
  src : Option Str
deriving DecidableEq, Repr

/-- One direct child of `div.pageContainer`, classified the way
`processEntryHTML` classifies it: a `div.pageHeader`/`div.title` child (both
skipped), a `div.assetGrid` child with its image items in document order, or
any other child with its outer HTML (`none` models a `goquery.OuterHtml`
error, which the code skips). -/
inductive Node where
  | headerOrTitle : Node
  | assetGrid : List GridItem → Node
  | other : Option Str → Node
deriving DecidableEq, Repr

/-- The parsed entry document, as `processEntryHTML` consumes it:
the text of the first `div.pageHeader` (empty when absent), the text of the
first `div.title span.s2` (if any matched), and the direct children of
`div.pageContainer` in document order. -/
structure EntryDoc where
  pageHeader : Str
  titleSpan : Option Str
  children : List Node
deriving DecidableEq, Repr

/-- The `MarkdownEntry` record of src/main.go. `media` models the Go map
`Media map[string]string` as an association list with Go-map insertion
semantics (`mediaInsert`); keys are unique by construction. -/
structure MarkdownEntry where
  creationDate : GoTime
  title : Str
  markdownText : Str
  media : List (Str × Str)
deriving DecidableEq, Repr

/-- Go map assignment `m[k] = v`: overwrite the value when the key is
present, otherwise add the binding. -/
def mediaInsert : List (Str × Str) → Str → Str → List (Str × Str)
  | [], k, v => [(k, v)]
  | (k0, v0) :: rest, k, v =>
    if k0 = k then (k0, v) :: rest
    else (k0, v0) :: mediaInsert rest k v

/-- The environment of effects `processEntryHTML` reads: `fs` says whether a
path exists on disk (`os.Stat` / `os.IsNotExist`), `convert` is the black-box
`markdownConverter.ConvertString` (`none` = conversion error), `gen k` is the
string of the k-th freshly generated UUID (`uuid.New().String()`, modelled as
a supply indexed by a counter threaded through the run). -/
structure Env where
  fs : Str → Bool
  convert : Str → Option Str
  gen : Nat → Str

/-- Loop state of the body-assembly loop: UUID counter, the `entry.Media`
map, and the `bodyMarkdownBuilder` contents. -/
structure AsmState where
  c : Nat
  media : List (Str × Str)
  text : Str
deriving DecidableEq, Repr

/-- The Markdown image-reference text `![](media/NAME)` (without the blank
line that follows it in the builder). -/
def imgRef (name : Str) : Str := ("![](media/").data ++ name ++ [')']

/-- Body of the `.Each` loop over grid images: skip when the src attribute is
missing; generate `uuid-<base>`; resolve the source path against the entry
document's directory; skip (after consuming the uuid) when the file does not
exist; otherwise record the media mapping and append the image fragment. -/
def processItem (env : Env) (htmlFilePath : Str) (st : AsmState) (it : GridItem) : AsmState :=
  match it.src with
  | none => st
  | some imgSrc =>
    let originalImageName := goBase imgSrc
    let newImageName := env.gen st.c ++ '-' :: originalImageName
    let absImgSrc := goClean (goJoin2 (goDir htmlFilePath) imgSrc)
    if env.fs absImgSrc then
      { c := st.c + 1,
        media := mediaInsert st.media absImgSrc newImageName,
        text := st.text ++ imgRef newImageName ++ ['\n', '\n'] }
    else { st with c := st.c + 1 }

/-- Body of the `.Each` loop over the children of `div.pageContainer`. -/
def processNode (env : Env) (htmlFilePath : Str) (st : AsmState) : Node → AsmState
  | .headerOrTitle => st
  | .assetGrid items => items.foldl (processItem env htmlFilePath) st
  | .other none => st
  | .other (some h) =>
    match env.convert h with
    | none => st
    | some frag => { st with text := st.text ++ goTrim frag ++ ['\n', '\n'] }

def processNodes (env : Env) (htmlFilePath : Str) (st : AsmState) (ns : List Node) : AsmState :=
  ns.foldl (processNode env htmlFilePath) st

/-- The title fallback of `processEntryHTML`: from the base file name without
extension, split at the first '_'; when there are two parts and the first
contains a '-', the title is the second part with underscores replaced by
spaces; otherwise the title stays empty. -/
def fallbackTitle (htmlFilePath : Str) : Str :=
  let fn := goStripExt (goBase htmlFilePath)
  match splitFirstCh '_' fn with
  | none => []
  | some (pre, rest) =>
    if pre.contains '-' then rest.map (fun c => if c = '_' then ' ' else c)
    else []

inductive ProcErr where
  | missingDate : ProcErr
  | dateParse : Str → ProcErr
  | emptyEntry : ProcErr
deriving DecidableEq, Repr

/-- Title extraction of `processEntryHTML`: the trimmed `div.title span.s2`
text when that selection is non-empty, else the file-name fallback. -/
def entryTitle (htmlFilePath : Str) (doc : EntryDoc) : Str :=
  match doc.titleSpan with
  | some s => goTrim s
  | none => fallbackTitle htmlFilePath

/-- `entry.MarkdownText` assembly: `"# %s\n\n%s"` when the title is
non-empty, else the body alone. -/
def entryText (title body : Str) : Str :=
  if title ≠ [] then '#' :: ' ' :: (title ++ '\n' :: '\n' :: body) else body

/-- `processEntryHTML` from src/main.go (given an already-parsed document).
Returns the produced entry or the per-entry error, together with the UUID
counter after the call (`uuid.New()` being the only generative effect). -/
def processEntry (env : Env) (htmlFilePath : Str) (doc : EntryDoc) (c0 : Nat) :
    Except ProcErr MarkdownEntry × Nat :=
  let dateStr := goTrim doc.pageHeader
  if dateStr = [] then (.error .missingDate, c0)
  else
    match parseAppleDate dateStr with
    | (_, some m) => (.error (.dateParse m), c0)
    | (t, none) =>
      let st := processNodes env htmlFilePath ⟨c0, [], []⟩ doc.children
      let txt := entryText (entryTitle htmlFilePath doc) (goTrim st.text)
      if txt = [] ∧ st.media = [] then (.error .emptyEntry, st.c)
      else (.ok ⟨t, entryTitle htmlFilePath doc, txt, st.media⟩, st.c)

/- ### Entry writer (saveMarkdownFile) -/

/-- A filesystem effect of `saveMarkdownFile`: copying a media file or
writing the Markdown file. -/
inductive FsOp where
  | copy : Str → Str → FsOp
  | write : Str → Str → FsOp
deriving DecidableEq, Repr

/-- Go `strings.ReplaceAll` for a single-character pattern and substitute. -/
def goReplaceAllCh (s : Str) (a b : Char) : Str :=
  s.map fun c => if c = a then b else c

/-- Title sanitization in `saveMarkdownFile`: '/' becomes '-', '"' becomes
a single quote (character 39). -/
def sanitizeTitle (t : Str) : Str :=
  goReplaceAllCh (goReplaceAllCh t '/' '-') '"' (Char.ofNat 39)

def digCh (k : Nat) : Char :=
  match k % 10 with
  | 0 => '0' | 1 => '1' | 2 => '2' | 3 => '3' | 4 => '4'
  | 5 => '5' | 6 => '6' | 7 => '7' | 8 => '8' | _ => '9'

/-- Decimal digits of a natural number. -/
def natDigits (n : Nat) : Str :=
  if _h : n < 10 then [digCh n]
  else natDigits (n / 10) ++ [digCh n]
decreasing_by exact Nat.div_lt_self (by omega) (by omega)

/-- Go `time.Format("2006-01-02")`: zero-padded 4-digit year and 2-digit
month and day. -/
def pad2 (n : Nat) : Str := if n < 100 then [digCh (n / 10), digCh n] else natDigits n

def pad4 (n : Nat) : Str :=
  if n < 10000 then [digCh (n / 1000), digCh (n / 100), digCh (n / 10), digCh n]
  else natDigits n

def formatDate2006 (t : GoTime) : Str :=
  pad4 t.year ++ '-' :: pad2 t.month ++ '-' :: pad2 t.day

/-- The file name `saveMarkdownFile` derives: `<YYYY-MM-DD>-<safeTitle>.md`. -/
def outputFileName (e : MarkdownEntry) : Str :=
  formatDate2006 e.creationDate ++ '-' :: sanitizeTitle e.title ++ (".md").data

/-- `saveMarkdownFile` as the sequence of filesystem operations it performs:
one copy per media mapping into the `media` subdirectory, then the write of
the Markdown text to the derived path. (Directory creation and the handling
of copy/write failures are diagnostics-only and not modelled.) -/
def saveMarkdownOps (outputDir : Str) (e : MarkdownEntry) : List FsOp :=
  let mediaDir := goJoin2 outputDir ("media").data
  (e.media.map fun p => FsOp.copy p.1 (goJoin2 mediaDir p.2))
  ++ [FsOp.write (goJoin2 outputDir (outputFileName e)) e.markdownText]

/- ### unzip -/

structure ZipEntry where
  name : Str
  isDir : Bool
deriving DecidableEq, Repr

/-- The extraction-path safety condition of `unzip`:
`strings.HasPrefix(fpath, filepath.Clean(dest)+"/")`. -/
def underDest (dest p : Str) : Prop := (goClean dest ++ ['/']) <+: p

instance (dest p : Str) : Decidable (underDest dest p) :=
  inferInstanceAs (Decidable ((goClean dest ++ ['/']) <+: p))

/-- The loop of `unzip`: on success the list of paths created for the archive
entries (in order); on the first entry whose resolved path fails the
prefix check, an error carrying the paths created so far and the offending
path. -/
def unzipAux (dest : Str) (acc : List Str) :
    List ZipEntry → Except (List Str × Str) (List Str)
  | [] => .ok acc
  | f :: rest =>
    let fpath := goJoin2 dest f.name
    if underDest dest fpath then unzipAux dest (acc ++ [fpath]) rest
    else .error (acc, fpath)

def unzip (dest : Str) (files : List ZipEntry) : Except (List Str × Str) (List Str) :=
  unzipAux dest [] files

/- ### Conversion driver (main) -/

/-- One path visited by `filepath.WalkDir` under the entries root, together
with the outcome of the effects the driver performs on it: `walkErr` models a
non-nil `walkErr` argument, `doc` the parsed document at the path, `saveOk`
whether `saveMarkdownFile` returns nil for it. -/
structure DriverItem where
  path : Str
  isDir : Bool
  walkErr : Bool
  doc : EntryDoc
  saveOk : Bool

/-- Driver accumulator: UUID counter, `processedCount`, the number of entries
whose Markdown file write succeeded, and the successfully extracted entries. -/
structure RunState where
  c : Nat
  processed : Nat
  written : Nat
  entries : List MarkdownEntry

/-- The body of the `filepath.WalkDir` callback in `main`: skip on a walk
error, skip directories and non-`.html` names (case-insensitive suffix
check on the base name), otherwise extract; on extraction failure skip;
on success attempt the save (its failure is only logged) and increment
`processedCount`. -/
def driverStep (env : Env) (st : RunState) (it : DriverItem) : RunState :=
  if it.walkErr then st
  else if it.isDir || !(List.isSuffixOf (".html").data ((goBase it.path).map toLowerCh)) then st
  else
    match processEntry env it.path it.doc st.c with
    | (.error _, c') => { st with c := c' }
    | (.ok e, c') =>
      { c := c',
        processed := st.processed + 1,
        written := st.written + (if it.saveOk then 1 else 0),
        entries := st.entries ++ [e] }

def runConvert (env : Env) (items : List DriverItem) (c0 : Nat) : RunState :=
  items.foldl (driverStep env) ⟨c0, 0, 0, []⟩

/-- All media output names assigned across a list of entries. -/
def allMediaNames (es : List MarkdownEntry) : List Str :=
  es.flatMap fun e => e.media.map Prod.snd

/-- The fallback-title rule as the specification's claim words it: when the
file name (without extension) matches `<id>-<rest>` — a hyphen-separated
prefix followed by a remainder — the title is the remainder with underscores
replaced by spaces; otherwise empty. Stated for comparison with the
implemented `fallbackTitle`. -/
def specFallbackTitle (htmlFilePath : Str) : Str :=
  let fn := goStripExt (goBase htmlFilePath)
  match splitFirstCh '-' fn with
  | none => []
  | some (_, rest) => goReplaceAllCh rest '_' ' '

/-- Projection of an extraction result to the entry's Markdown text
(empty on error). -/
def exText : Except ProcErr MarkdownEntry → Str
  | .ok e => e.markdownText
  | .error _ => []

/-- Projection of an extraction result to the entry's assigned media output
names (empty on error). -/
def exMediaNames : Except ProcErr MarkdownEntry → List Str
  | .ok e => e.media.map Prod.snd
  | .error _ => []

/- ### Helper lemmas -/

theorem splitFirstCh_of_not_mem (ch : Char) (l : Str) (h : ch ∉ l) :
    splitFirstCh ch l = none := by
  induction l with
  | nil => rfl
  | cons c cs ih =>
    have hc : ¬ c = ch := fun hc => h (by simp [hc])
    have hcs : ch ∉ cs := fun hm => h (List.mem_cons_of_mem c hm)
    simp [splitFirstCh, hc, ih hcs]


theorem splitFirstCh_append (ch : Char) (pre rest : Str) (h : ch ∉ pre) :
    splitFirstCh ch (pre ++ ch :: rest) = some (pre, rest) := by
  induction pre with
  | nil => simp [splitFirstCh]
  | cons c cs ih =>
    have hc : ¬ c = ch := fun hc => h (by simp [hc])
    have hcs : ch ∉ cs := fun hm => h (List.mem_cons_of_mem c hm)
    simp [splitFirstCh, hc, ih hcs]

/-- A Markdown-builder increment: empty (node skipped) or ending in the
blank-line separator. -/
def FragOk (frag : Str) : Prop := frag = [] ∨ ['\n', '\n'] <:+ frag

theorem fragOk_append {f1 f2 : Str} (h1 : FragOk f1) (h2 : FragOk f2) :
    FragOk (f1 ++ f2) := by
  rcases h2 with rfl | ⟨t, rfl⟩
  · simpa using h1
  · exact Or.inr ⟨f1 ++ t, by simp⟩

theorem processItem_text_append (env : Env) (path : Str) (st : AsmState) (it : GridItem) :
    ∃ frag, (processItem env path st it).text = st.text ++ frag ∧ FragOk frag := by
  obtain ⟨src⟩ := it
  cases src with
  | none => exact ⟨[], by simp [processItem, FragOk]⟩
  | some s =>
    by_cases hfs :
        env.fs (goClean (goJoin2 (goDir path) s)) = true
    · refine ⟨imgRef (env.gen st.c ++ '-' :: goBase s) ++ ['\n', '\n'], ?_, ?_⟩
      · simp [processItem, hfs]
      · exact Or.inr ⟨imgRef (env.gen st.c ++ '-' :: goBase s), rfl⟩
    · exact ⟨[], by simp [processItem, Bool.not_eq_true _ ▸ hfs, FragOk], Or.inl rfl⟩

theorem foldl_processItem_text (env : Env) (path : Str) (items : List GridItem) :
    ∀ st : AsmState, ∃ frag,
      (items.foldl (processItem env path) st).text = st.text ++ frag ∧ FragOk frag := by
  induction items with
  | nil => exact fun st => ⟨[], by simp, Or.inl rfl⟩
  | cons it its ih =>
    intro st
    obtain ⟨f1, hf1, hok1⟩ := processItem_text_append env path st it
    obtain ⟨f2, hf2, hok2⟩ := ih (processItem env path st it)
    exact ⟨f1 ++ f2, by simp [List.foldl_cons, hf2, hf1], fragOk_append hok1 hok2⟩

theorem processNode_text_append (env : Env) (path : Str) (st : AsmState) (n : Node) :
    ∃ frag, (processNode env path st n).text = st.text ++ frag ∧ FragOk frag := by
  cases n with
  | headerOrTitle => exact ⟨[], by simp [processNode], Or.inl rfl⟩
  | assetGrid items => exact foldl_processItem_text env path items st
  | other ho =>
    cases ho with
    | none => exact ⟨[], by simp [processNode], Or.inl rfl⟩
    | some h =>
      cases hcv : env.convert h with
      | none => exact ⟨[], by simp [processNode, hcv], Or.inl rfl⟩
      | some frag =>
        exact ⟨goTrim frag ++ ['\n', '\n'], by simp [processNode, hcv],
          Or.inr ⟨goTrim frag, rfl⟩⟩

/-- C10 (confirmed): an image item whose img element has no src attribute is
skipped silently — state (counter, media, builder text) is unchanged — and the
rest of the grid is processed as if the item were absent. -/
theorem grid_item_without_src_skipped (env : Env) (path : Str) (st : AsmState)
    (items : List GridItem) :
    processItem env path st ⟨none⟩ = st
    ∧ processNode env path st (.assetGrid (⟨none⟩ :: items))
        = processNode env path st (.assetGrid items) :=
  ⟨rfl, rfl⟩

/-- C2 (confirmed): the assembler folds the children strictly left-to-right
(processing a concatenation of node lists processes the first list, then the
second from the resulting state), each node only appends its own fragment —
terminated by a blank line when nonempty — to the end of the builder, and a
successfully extracted entry's Markdown text is a (possibly empty title
heading) prefix followed by the trimmed builder contents. -/
theorem assembler_preserves_order (env : Env) (path : Str) (st : AsmState)
    (ns1 ns2 : List Node) (doc : EntryDoc) (c0 : Nat) (e : MarkdownEntry) :
    processNodes env path st (ns1 ++ ns2)
        = processNodes env path (processNodes env path st ns1) ns2
    ∧ (∀ n, ∃ frag, (processNode env path st n).text = st.text ++ frag ∧ FragOk frag)
    ∧ ((processEntry env path doc c0).1 = .ok e →
        ∃ pre, e.markdownText
          = pre ++ goTrim (processNodes env path ⟨c0, [], []⟩ doc.children).text) := by
  refine ⟨List.foldl_append .., fun n => processNode_text_append env path st n, fun h => ?_⟩
  unfold processEntry at h
  by_cases h1 : goTrim doc.pageHeader = []
  · simp [h1] at h
  · rw [if_neg h1] at h
    rcases hpd : parseAppleDate (goTrim doc.pageHeader) with ⟨t, o⟩
    rw [hpd] at h
    cases o with
    | some m => simp at h
    | none =>
      simp only [] at h
      by_cases h2 :
          entryText (entryTitle path doc)
              (goTrim (processNodes env path ⟨c0, [], []⟩ doc.children).text) = []
            ∧ (processNodes env path ⟨c0, [], []⟩ doc.children).media = []
      · rw [if_pos h2] at h; simp at h
      · rw [if_neg h2] at h
        simp only [Except.ok.injEq] at h
        subst h
        unfold entryText
        by_cases ht : entryTitle path doc ≠ []
        · rw [if_pos ht]
          exact ⟨'#' :: ' ' :: entryTitle path doc ++ ['\n', '\n'], by simp⟩
        · rw [if_neg ht]
          exact ⟨[], rfl⟩

deriving instance DecidableEq for Except

/-- A concrete environment for evaluating the model: every file exists, the
HTML-to-Markdown converter is the identity, the UUID supply is the counter's
last digit. -/
def envID : Env :=
  { fs := fun _ => true, convert := fun s => some s, gen := fun n => [digCh n] }

def docC2 : EntryDoc :=
  { pageHeader := ("Tuesday, December 12, 2023").data,
    titleSpan := some ((" T ").data),
    children := [Node.other (some (("hi").data))] }

theorem assembler_preserves_order_witness :
    ∃ pre, (("# T\n\nhi").data : Str)
      = pre ++ goTrim (processNodes envID (("x").data) ⟨0, [], []⟩ docC2.children).text :=
  (assembler_preserves_order envID (("x").data) ⟨0, [], []⟩ [] [] docC2 0
      ⟨⟨2023, 12, 12, 12⟩, ("T").data, ("# T\n\nhi").data, []⟩).2.2 (by decide)

/-- C8 (confirmed): `saveMarkdownFile` copies each media mapping into the
`media` subdirectory and then writes the Markdown text verbatim to
`<outputDir>/<YYYY-MM-DD>-<sanitizedTitle>.md`; the sanitized title is the
title with '/' replaced by '-' and '"' replaced by a single quote, so it
contains neither path separators nor double quotes. -/
theorem save_markdown_file_shape (outputDir : Str) (e : MarkdownEntry) :
    saveMarkdownOps outputDir e
      = (e.media.map fun p => FsOp.copy p.1 (goJoin2 (goJoin2 outputDir (("media").data)) p.2))
        ++ [FsOp.write
              (goJoin2 outputDir
                (formatDate2006 e.creationDate ++ '-' :: sanitizeTitle e.title ++ ((".md").data)))
              e.markdownText]
    ∧ sanitizeTitle e.title
        = e.title.map (fun c => if c = '/' then '-' else if c = '"' then Char.ofNat 39 else c)
    ∧ '/' ∉ sanitizeTitle e.title ∧ '"' ∉ sanitizeTitle e.title := by
  have hchar : sanitizeTitle e.title
      = e.title.map (fun c => if c = '/' then '-' else if c = '"' then Char.ofNat 39 else c) := by
    unfold sanitizeTitle goReplaceAllCh
    rw [List.map_map]
    congr 1
    funext c
    by_cases hs : c = '/'
    · subst hs; rfl
    · by_cases hq : c = '"'
      · subst hq; rfl
      · simp [Function.comp, hs, hq]
  refine ⟨rfl, hchar, ?_, ?_⟩
  · intro hmem
    rw [hchar] at hmem
    simp only [List.mem_map] at hmem
    obtain ⟨c, _, he⟩ := hmem
    split_ifs at he with hs hq
    · exact absurd he (by decide)
    · exact absurd he (by decide)
    · exact hs he
  · intro hmem
    rw [hchar] at hmem
    simp only [List.mem_map] at hmem
    obtain ⟨c, _, he⟩ := hmem
    split_ifs at he with hs hq
    · exact absurd he (by decide)
    · exact absurd he (by decide)
    · exact hq he

/-- C4 (confirmed): given a non-empty header with a parseable date, the
extractor fails with `EmptyEntryError` exactly when the assembled Markdown
text (title heading included) is empty and no media references were
collected; otherwise it produces the entry with that text and media. -/
theorem empty_entry_check (env : Env) (path : Str) (doc : EntryDoc) (c0 : Nat)
    (h1 : goTrim doc.pageHeader ≠ [])
    (h2 : (parseAppleDate (goTrim doc.pageHeader)).2 = none) :
    ((processEntry env path doc c0).1 = .error .emptyEntry
      ↔ (entryText (entryTitle path doc)
            (goTrim (processNodes env path ⟨c0, [], []⟩ doc.children).text) = []
          ∧ (processNodes env path ⟨c0, [], []⟩ doc.children).media = []))
    ∧ (¬ (entryText (entryTitle path doc)
            (goTrim (processNodes env path ⟨c0, [], []⟩ doc.children).text) = []
          ∧ (processNodes env path ⟨c0, [], []⟩ doc.children).media = []) →
        (processEntry env path doc c0).1
          = .ok ⟨(parseAppleDate (goTrim doc.pageHeader)).1, entryTitle path doc,
                 entryText (entryTitle path doc)
                   (goTrim (processNodes env path ⟨c0, [], []⟩ doc.children).text),
                 (processNodes env path ⟨c0, [], []⟩ doc.children).media⟩) := by
  unfold processEntry
  rw [if_neg h1]
  rw [← Prod.mk.eta (p := parseAppleDate (goTrim doc.pageHeader)), h2]
  simp only []
  by_cases hc :
      entryText (entryTitle path doc)
          (goTrim (processNodes env path ⟨c0, [], []⟩ doc.children).text) = []
        ∧ (processNodes env path ⟨c0, [], []⟩ doc.children).media = []
  · rw [if_pos hc]
    exact ⟨by simp [hc], fun hn => absurd hc hn⟩
  · rw [if_neg hc]
    exact ⟨by simp [hc], fun _ => rfl⟩

def docC4 : EntryDoc :=
  { pageHeader := ("Tuesday, December 12, 2023").data,
    titleSpan := none,
    children := [] }

theorem empty_entry_check_witness :
    (processEntry envID (("x").data) docC4 0).1 = .error .emptyEntry :=
  (empty_entry_check envID (("x").data) docC4 0 (by decide) (by decide)).1.mpr (by decide)

/-- C6 counterexample: on input "Funday, garbage" all layouts fail, and the
error carries "garbage" — the normalized remainder after the first comma —
not the original input string as the claim states. -/
theorem date_error_payload_counterexample :
    (parseAppleDate (("Funday, garbage").data)).2 = some (("garbage").data)
    ∧ (("garbage").data : Str) ≠ (("Funday, garbage").data) := by decide

/-- C6 as amended: when all layouts fail on the normalized date string, the
parser returns the zero time together with an error carrying the normalized
remainder (the part after the first comma, trimmed; the whole input when
there is no comma) — never a zero or garbage date without an error. -/
theorem date_parse_failure (s : Str) (h : parseLayouts (normDate s) = none) :
    parseAppleDate s = (zeroTime, some (normDate s)) := by
  unfold parseAppleDate
  simp only [h]

theorem date_parse_failure_witness :
    parseAppleDate (("Funday, garbage").data) = (zeroTime, some (("garbage").data)) :=
  (date_parse_failure (("Funday, garbage").data) (by decide)).trans (by decide)

/-- C7 counterexample: the file name "abc-def" (no extension) matches the
claim's `<id>-<rest>` pattern, so the claim demands title "def"; the code
leaves the title empty because there is no underscore in the name. -/
theorem fallback_title_counterexample :
    fallbackTitle (("/e/abc-def.html").data) = []
    ∧ specFallbackTitle (("/e/abc-def.html").data) = (("def").data)
    ∧ fallbackTitle (("/e/abc-def.html").data)
        ≠ specFallbackTitle (("/e/abc-def.html").data) := by decide

/-- C7 as amended: the fallback applies exactly when the file name without
extension contains an underscore and the part before the first underscore
contains a hyphen; the title is then the part after the first underscore
with underscores replaced by spaces, and otherwise stays empty. -/
theorem fallback_title_characterization (path : Str) :
    (∀ pre rest, goStripExt (goBase path) = pre ++ '_' :: rest → '_' ∉ pre →
        fallbackTitle path
          = if pre.contains '-' then rest.map (fun c => if c = '_' then ' ' else c) else [])
    ∧ ('_' ∉ goStripExt (goBase path) → fallbackTitle path = []) := by
  constructor
  · intro pre rest heq hpre
    unfold fallbackTitle
    rw [heq]
    simp only [splitFirstCh_append _ _ _ hpre]
  · intro h
    unfold fallbackTitle
    simp only [splitFirstCh_of_not_mem _ _ h]

theorem fallback_title_characterization_witness :
    fallbackTitle (("/e/ab-cd_My_Walk.html").data) = (("My Walk").data) :=
  ((fallback_title_characterization (("/e/ab-cd_My_Walk.html").data)).1
      (("ab-cd").data) (("My_Walk").data) (by decide) (by decide)).trans (by decide)

/-- C3 counterexample: one entry that extracts successfully but whose
Markdown write fails is still counted — the final count is 1 while the
number of entries converted and written is 0. -/
def docC3 : EntryDoc :=
  { pageHeader := ("Tuesday, December 12, 2023").data,
    titleSpan := none,
    children := [Node.other (some (("hi").data))] }

def itemC3 : DriverItem :=
  { path := ("/e/a.html").data, isDir := false, walkErr := false,
    doc := docC3, saveOk := false }

theorem processed_count_counterexample :
    (runConvert envID [itemC3] 0).processed = 1
    ∧ (runConvert envID [itemC3] 0).written = 0
    ∧ (runConvert envID [itemC3] 0).processed ≠ (runConvert envID [itemC3] 0).written := by
  decide

theorem driver_fold_inv (env : Env) (items : List DriverItem) :
    ∀ st : RunState, st.processed = st.entries.length → st.written ≤ st.processed →
      ((items.foldl (driverStep env) st).processed
          = (items.foldl (driverStep env) st).entries.length
        ∧ (items.foldl (driverStep env) st).written
          ≤ (items.foldl (driverStep env) st).processed) := by
  induction items with
  | nil => exact fun st h1 h2 => ⟨h1, h2⟩
  | cons it its ih =>
    intro st h1 h2
    rw [List.foldl_cons]
    have hstep : (driverStep env st it).processed = (driverStep env st it).entries.length
        ∧ (driverStep env st it).written ≤ (driverStep env st it).processed := by
      unfold driverStep
      by_cases hw : it.walkErr = true
      · rw [if_pos hw]; exact ⟨h1, h2⟩
      · rw [if_neg hw]
        by_cases hd :
            (it.isDir || !(List.isSuffixOf ((".html").data) ((goBase it.path).map toLowerCh)))
              = true
        · rw [if_pos hd]; exact ⟨h1, h2⟩
        · rw [if_neg hd]
          rcases processEntry env it.path it.doc st.c with ⟨res, c'⟩
          cases res with
          | error err => exact ⟨h1, h2⟩
          | ok e =>
            constructor
            · simp [h1]
            · simp only []
              split_ifs <;> omega
    exact ih (driverStep env st it) hstep.1 hstep.2

/-- C3 as amended: the driver's final count equals the number of entries
successfully extracted; an entry whose extraction fails is not counted, but
an entry whose Markdown write fails is still counted, so the count is an
upper bound on (not equal to) the number of entries converted and written. -/
theorem processed_count_extracted (env : Env) (items : List DriverItem) (c0 : Nat) :
    (runConvert env items c0).processed = (runConvert env items c0).entries.length
    ∧ (runConvert env items c0).written ≤ (runConvert env items c0).processed :=
  driver_fold_inv env items ⟨c0, 0, 0, []⟩ rfl (Nat.le_refl 0)

theorem unzipAux_ok_under (dest : Str) :
    ∀ (files : List ZipEntry) (acc paths : List Str),
      (∀ p ∈ acc, underDest dest p) → unzipAux dest acc files = .ok paths →
      ∀ p ∈ paths, underDest dest p := by
  intro files
  induction files with
  | nil =>
    intro acc paths hacc h
    simp only [unzipAux, Except.ok.injEq] at h
    exact h ▸ hacc
  | cons f fs ih =>
    intro acc paths hacc h
    unfold unzipAux at h
    by_cases hu : underDest dest (goJoin2 dest f.name)
    · rw [if_pos hu] at h
      refine ih _ _ (fun p hp => ?_) h
      rcases List.mem_append.mp hp with hp1 | hp2
      · exact hacc p hp1
      · rw [List.mem_singleton.mp hp2]; exact hu
    · rw [if_neg hu] at h
      cases h

theorem unzipAux_error_under (dest : Str) :
    ∀ (files : List ZipEntry) (acc : List Str) (w : List Str) (b : Str),
      (∀ p ∈ acc, underDest dest p) → unzipAux dest acc files = .error (w, b) →
      (∀ p ∈ w, underDest dest p) ∧ ¬ underDest dest b := by
  intro files
  induction files with
  | nil =>
    intro acc w b hacc h
    cases h
  | cons f fs ih =>
    intro acc w b hacc h
    unfold unzipAux at h
    by_cases hu : underDest dest (goJoin2 dest f.name)
    · rw [if_pos hu] at h
      refine ih _ _ _ (fun p hp => ?_) h
      rcases List.mem_append.mp hp with hp1 | hp2
      · exact hacc p hp1
      · rw [List.mem_singleton.mp hp2]; exact hu
    · rw [if_neg hu] at h
      simp only [Except.error.injEq, Prod.mk.injEq] at h
      exact ⟨h.1 ▸ hacc, h.2 ▸ hu⟩

theorem unzipAux_error_of_bad (dest : Str) :
    ∀ (files : List ZipEntry) (acc : List Str),
      (∃ f ∈ files, ¬ underDest dest (goJoin2 dest f.name)) →
      ∃ w b, unzipAux dest acc files = .error (w, b) := by
  intro files
  induction files with
  | nil =>
    intro acc h
    simp at h
  | cons f fs ih =>
    intro acc h
    unfold unzipAux
    by_cases hu : underDest dest (goJoin2 dest f.name)
    · rw [if_pos hu]
      rcases h with ⟨g, hg, hbad⟩
      rcases List.mem_cons.mp hg with rfl | hgs
      · exact absurd hu hbad
      · exact ih _ ⟨g, hgs, hbad⟩
    · rw [if_neg hu]
      exact ⟨acc, goJoin2 dest f.name, rfl⟩

/-- C9 (confirmed): `unzip` rejects any archive containing an entry whose
resolved extraction path escapes the destination (the `Clean(dest)+"/"`
prefix check fails): the run fails with an error, every path created before
the failure lies under the destination, and the offending path itself is
never created; on success every created path lies under the destination. -/
theorem unzip_path_traversal_safe (dest : Str) (files : List ZipEntry) :
    (∀ paths, unzip dest files = .ok paths → ∀ p ∈ paths, underDest dest p)
    ∧ (∀ w b, unzip dest files = .error (w, b) →
        (∀ p ∈ w, underDest dest p) ∧ ¬ underDest dest b)
    ∧ ((∃ f ∈ files, ¬ underDest dest (goJoin2 dest f.name)) →
        ∃ w b, unzip dest files = .error (w, b)) :=
  ⟨fun paths h => unzipAux_ok_under dest files [] paths (by simp) h,
   fun w b h => unzipAux_error_under dest files [] w b (by simp) h,
   fun h => unzipAux_error_of_bad dest files [] h⟩

theorem unzip_path_traversal_safe_witness :
    ∃ w b,
      unzip (("/out").data)
        [⟨("a.txt").data, false⟩, ⟨("../evil.txt").data, false⟩] = .error (w, b) :=
  (unzip_path_traversal_safe (("/out").data)
      [⟨("a.txt").data, false⟩, ⟨("../evil.txt").data, false⟩]).2.2
    ⟨⟨("../evil.txt").data, false⟩, by decide, by decide⟩

/- ### C5: the date parser on well-formed headers -/

/-- Canonical textual day-of-month: one digit below 10, two digits
otherwise (the claim's "Day"). -/
def dig2 (d : Nat) : Str := if d < 10 then [digCh d] else [digCh (d / 10), digCh d]

/-- Canonical four-digit textual year (the claim's "Year"). -/
def dig4 (y : Nat) : Str := [digCh (y / 1000), digCh (y / 100), digCh (y / 10), digCh y]

def monthNameFull (m : Nat) : Str := monthNamesFull.getD (m - 1) []

def monthNameAbbrev (m : Nat) : Str := monthNamesAbbrev.getD (m - 1) []

theorem digCh_isDig (k : Nat) : isDig (digCh k) = true := by
  unfold digCh
  have h : k % 10 < 10 := Nat.mod_lt _ (by omega)
  set r := k % 10 with hr
  interval_cases r <;> rfl

theorem digVal_digCh (k : Nat) : digVal (digCh k) = k % 10 := by
  unfold digCh digVal
  have h : k % 10 < 10 := Nat.mod_lt _ (by omega)
  set r := k % 10 with hr
  interval_cases r <;> rfl

theorem digCh_not_space (k : Nat) : goIsSpace (digCh k) = false := by
  unfold digCh
  have h : k % 10 < 10 := Nat.mod_lt _ (by omega)
  set r := k % 10 with hr
  interval_cases r <;> rfl

theorem getnum2_dig2 (d : Nat) (rest : Str) (hd : d < 100) :
    getnum2 (dig2 d ++ ',' :: rest) = some (d, ',' :: rest) := by
  by_cases h : d < 10
  · rw [dig2, if_pos h]
    simp only [List.cons_append, List.nil_append, getnum2, digCh_isDig, if_true]
    rw [if_neg (by decide : ¬ isDig ',' = true)]
    rw [digVal_digCh, Nat.mod_eq_of_lt h]
  · rw [dig2, if_neg h]
    simp only [List.cons_append, List.nil_append, getnum2, digCh_isDig, if_true]
    rw [digVal_digCh, digVal_digCh]
    have : d / 10 % 10 * 10 + d % 10 = d := by omega
    rw [this]

theorem getnum4_dig4 (y : Nat) (rest : Str) (hy : y < 10000) :
    getnum4 (dig4 y ++ rest) = some (y, rest) := by
  simp only [dig4, List.cons_append, List.nil_append, getnum4, digCh_isDig,
    Bool.and_self, if_true, digVal_digCh]
  have : ((y / 1000 % 10 * 10 + y / 100 % 10) * 10 + y / 10 % 10) * 10 + y % 10 = y := by
    omega
  rw [this]

theorem daysIn_le (m y : Nat) : daysIn m y ≤ 31 := by
  unfold daysIn
  split_ifs <;> omega

theorem lookupMonth_full (m : Nat) (h1 : 1 ≤ m) (h2 : m ≤ 12) (rest : Str) :
    lookupMonth monthNamesFull (monthNameFull m ++ rest) = some (m, rest) := by
  interval_cases m <;> rfl

theorem lookupMonth_abbrev (m : Nat) (h1 : 1 ≤ m) (h2 : m ≤ 12) (rest : Str) :
    lookupMonth monthNamesAbbrev (monthNameAbbrev m ++ rest) = some (m, rest) := by
  interval_cases m <;> rfl

/-- The full-name layout fails on an abbreviated month name followed by a
space — except for May, whose full and abbreviated names coincide. -/
theorem lookupMonth_full_of_abbrev (m : Nat) (h1 : 1 ≤ m) (h2 : m ≤ 12) (hm : m ≠ 5)
    (rest : Str) :
    lookupMonth monthNamesFull (monthNameAbbrev m ++ ' ' :: rest) = none := by
  interval_cases m
  · rfl
  · rfl
  · rfl
  · rfl
  · exact absurd rfl hm
  · rfl
  · rfl
  · rfl
  · rfl
  · rfl
  · rfl
  · rfl

theorem parseMDY_tail (names : List Str) (v : Str) (m d y : Nat)
    (hl : lookupMonth names v = some (m, ' ' :: (dig2 d ++ ',' :: ' ' :: dig4 y)))
    (hd1 : 1 ≤ d) (hd2 : d ≤ daysIn m y) (hy : y < 10000) :
    parseMonthDayYear names v = some (y, m, d) := by
  have hd100 : d < 100 := by have := daysIn_le m y; omega
  have e1 : expectCh ' ' (' ' :: (dig2 d ++ ',' :: ' ' :: dig4 y))
      = some (dig2 d ++ ',' :: ' ' :: dig4 y) := rfl
  have g2 := getnum2_dig2 d (' ' :: dig4 y) hd100
  have e3 : expectCh ',' (',' :: ' ' :: dig4 y) = some (' ' :: dig4 y) := rfl
  have e4 : expectCh ' ' (' ' :: dig4 y) = some (dig4 y) := rfl
  have g4 := getnum4_dig4 y [] hy
  rw [List.append_nil] at g4
  unfold parseMonthDayYear
  rw [hl]
  simp only [e1, g2, e3, e4, g4]
  rw [if_pos trivial, if_pos (show 1 ≤ d ∧ d ≤ daysIn m y from ⟨hd1, hd2⟩)]

theorem parseLayouts_full (m d y : Nat) (h1 : 1 ≤ m) (h2 : m ≤ 12)
    (hd1 : 1 ≤ d) (hd2 : d ≤ daysIn m y) (hy : y < 10000) :
    parseLayouts (monthNameFull m ++ ' ' :: (dig2 d ++ ',' :: ' ' :: dig4 y))
      = some (y, m, d) := by
  have h := parseMDY_tail monthNamesFull _ m d y (lookupMonth_full m h1 h2 _) hd1 hd2 hy
  unfold parseLayouts
  rw [h]
  rfl

theorem parseLayouts_abbrev (m d y : Nat) (h1 : 1 ≤ m) (h2 : m ≤ 12)
    (hd1 : 1 ≤ d) (hd2 : d ≤ daysIn m y) (hy : y < 10000) :
    parseLayouts (monthNameAbbrev m ++ ' ' :: (dig2 d ++ ',' :: ' ' :: dig4 y))
      = some (y, m, d) := by
  by_cases hm : m = 5
  · subst hm
    exact parseLayouts_full 5 d y h1 h2 hd1 hd2 hy
  · have hfull : parseMonthDayYear monthNamesFull
        (monthNameAbbrev m ++ ' ' :: (dig2 d ++ ',' :: ' ' :: dig4 y)) = none := by
      unfold parseMonthDayYear
      rw [lookupMonth_full_of_abbrev m h1 h2 hm _]
    have habbr := parseMDY_tail monthNamesAbbrev _ m d y (lookupMonth_abbrev m h1 h2 _)
      hd1 hd2 hy
    unfold parseLayouts
    rw [hfull, habbr]
    rfl

theorem goTrim_cons_space (l : Str) : goTrim (' ' :: l) = goTrim l := by
  unfold goTrim
  rw [List.dropWhile_cons, if_pos (by rfl)]

theorem goTrim_eq_self_of (v : Str) (h1 : List.dropWhile goIsSpace v = v)
    (h2 : List.dropWhile goIsSpace v.reverse = v.reverse) : goTrim v = v := by
  unfold goTrim
  rw [h1, h2, List.reverse_reverse]

theorem dropWhile_rev_concat (A : Str) (c : Char) (hc : goIsSpace c = false) :
    List.dropWhile goIsSpace (A ++ [c]).reverse = (A ++ [c]).reverse := by
  rw [List.reverse_append]
  simp only [List.reverse_cons, List.reverse_nil, List.nil_append, List.singleton_append]
  rw [List.dropWhile_cons, if_neg (by rw [hc]; exact Bool.false_ne_true)]

theorem dropWhile_monthFull (m : Nat) (h1 : 1 ≤ m) (h2 : m ≤ 12) (X : Str) :
    List.dropWhile goIsSpace (monthNameFull m ++ X) = monthNameFull m ++ X := by
  interval_cases m <;> rfl

theorem dropWhile_monthAbbrev (m : Nat) (h1 : 1 ≤ m) (h2 : m ≤ 12) (X : Str) :
    List.dropWhile goIsSpace (monthNameAbbrev m ++ X) = monthNameAbbrev m ++ X := by
  interval_cases m <;> rfl

theorem normDate_split (w r : Str) (hw : ',' ∉ w) : normDate (w ++ ',' :: r) = goTrim r := by
  unfold normDate
  rw [splitFirstCh_append ',' w r hw]

/-- C5 (confirmed): for a header "Weekday, Month Day, Year" whose date part
uses a known month name (full or abbreviated), a canonical 1-2 digit day
valid for that month, and a 4-digit year, the parser returns exactly
year/month/day at noon (UTC) — and for any header, the result never depends
on the weekday text before the first comma. -/
theorem date_header_parsed (w : Str) (m d y : Nat) (mname : Str)
    (hw : ',' ∉ w)
    (hm : mname = monthNameFull m ∨ mname = monthNameAbbrev m)
    (h1 : 1 ≤ m) (h2 : m ≤ 12) (hd1 : 1 ≤ d) (hd2 : d ≤ daysIn m y)
    (hy1 : 1000 ≤ y) (hy2 : y ≤ 9999) :
    parseAppleDate (w ++ ',' :: ' ' :: (mname ++ ' ' :: (dig2 d ++ ',' :: ' ' :: dig4 y)))
        = (⟨y, m, d, 12⟩, none)
    ∧ (∀ w2 r, ',' ∉ w2 → parseAppleDate (w ++ ',' :: r) = parseAppleDate (w2 ++ ',' :: r)) := by
  have hy : y < 10000 := by omega
  constructor
  · have hshape : mname ++ ' ' :: (dig2 d ++ ',' :: ' ' :: dig4 y)
        = (mname ++ ' ' :: (dig2 d ++ ',' :: ' ' ::
            [digCh (y / 1000), digCh (y / 100), digCh (y / 10)])) ++ [digCh y] := by
      simp [dig4]
    have hA : List.dropWhile goIsSpace (mname ++ ' ' :: (dig2 d ++ ',' :: ' ' :: dig4 y))
        = mname ++ ' ' :: (dig2 d ++ ',' :: ' ' :: dig4 y) := by
      rcases hm with rfl | rfl
      · exact dropWhile_monthFull m h1 h2 _
      · exact dropWhile_monthAbbrev m h1 h2 _
    have hB : List.dropWhile goIsSpace
          (mname ++ ' ' :: (dig2 d ++ ',' :: ' ' :: dig4 y)).reverse
        = (mname ++ ' ' :: (dig2 d ++ ',' :: ' ' :: dig4 y)).reverse := by
      rw [hshape]
      exact dropWhile_rev_concat _ (digCh y) (digCh_not_space y)
    unfold parseAppleDate
    rw [normDate_split _ _ hw, goTrim_cons_space, goTrim_eq_self_of _ hA hB]
    rcases hm with rfl | rfl
    · simp only [parseLayouts_full m d y h1 h2 hd1 hd2 hy]
    · simp only [parseLayouts_abbrev m d y h1 h2 hd1 hd2 hy]
  · intro w2 r hw2
    unfold parseAppleDate
    rw [normDate_split w r hw, normDate_split w2 r hw2]

theorem date_header_parsed_witness :
    parseAppleDate (("Tuesday, December 12, 2023").data) = (⟨2023, 12, 12, 12⟩, none) := by
  have heq : (("Tuesday, December 12, 2023").data : Str)
      = ("Tuesday").data ++ ',' :: ' ' ::
          (monthNameFull 12 ++ ' ' :: (dig2 12 ++ ',' :: ' ' :: dig4 2023)) := by decide
  rw [heq]
  exact (date_header_parsed (("Tuesday").data) 12 12 2023 (monthNameFull 12)
      (by decide) (Or.inl rfl) (by decide) (by decide) (by decide) (by decide)
      (by decide) (by decide)).1

/- ### C1: uniqueness of generated media names and body references -/

theorem mediaInsert_mem {m : List (Str × Str)} {k v : Str} {pr : Str × Str}
    (h : pr ∈ mediaInsert m k v) : pr ∈ m ∨ pr = (k, v) := by
  induction m with
  | nil => simpa [mediaInsert] using h
  | cons kv rest ih =>
    obtain ⟨k0, v0⟩ := kv
    unfold mediaInsert at h
    by_cases hk : k0 = k
    · rw [if_pos hk] at h
      rcases List.mem_cons.mp h with rfl | hr
      · exact Or.inr (by rw [hk])
      · exact Or.inl (List.mem_cons_of_mem _ hr)
    · rw [if_neg hk] at h
      rcases List.mem_cons.mp h with rfl | hr
      · exact Or.inl (List.mem_cons_self _ _)
      · rcases ih hr with h1 | h2
        · exact Or.inl (List.mem_cons_of_mem _ h1)
        · exact Or.inr h2

theorem mediaInsert_values_mem {m : List (Str × Str)} {k v w : Str}
    (h : w ∈ (mediaInsert m k v).map Prod.snd) : w ∈ m.map Prod.snd ∨ w = v := by
  rcases List.mem_map.mp h with ⟨pr, hpr, rfl⟩
  rcases mediaInsert_mem hpr with h1 | rfl
  · exact Or.inl (List.mem_map_of_mem _ h1)
  · exact Or.inr rfl

theorem mediaInsert_values_pairwise {m : List (Str × Str)} {k v : Str}
    (hp : (m.map Prod.snd).Pairwise (· ≠ ·))
    (hnew : ∀ w ∈ m.map Prod.snd, w ≠ v) :
    ((mediaInsert m k v).map Prod.snd).Pairwise (· ≠ ·) := by
  induction m with
  | nil => simp [mediaInsert]
  | cons kv rest ih =>
    obtain ⟨k0, v0⟩ := kv
    simp only [List.map_cons, List.pairwise_cons] at hp
    unfold mediaInsert
    by_cases hk : k0 = k
    · rw [if_pos hk]
      simp only [List.map_cons, List.pairwise_cons]
      refine ⟨fun w hw => ?_, hp.2⟩
      exact fun hvw => hnew w (List.mem_cons_of_mem _ hw) hvw.symm
    · rw [if_neg hk]
      simp only [List.map_cons, List.pairwise_cons]
      refine ⟨fun w hw => ?_, ih hp.2 (fun w hw => hnew w (List.mem_cons_of_mem _ hw))⟩
      rcases mediaInsert_values_mem hw with h1 | rfl
      · exact hp.1 w h1
      · exact hnew v0 (List.mem_cons_self _ _)

theorem stamp_ne (gen : Nat → Str) (L N : Nat)
    (hinj : ∀ k1, k1 < N → ∀ k2, k2 < N → gen k1 = gen k2 → k1 = k2)
    (hlen : ∀ k, k < N → (gen k).length = L)
    {k1 k2 : Nat} {t1 t2 : Str} (hk1 : k1 < N) (hk2 : k2 < N) (hne : k1 ≠ k2) :
    gen k1 ++ '-' :: t1 ≠ gen k2 ++ '-' :: t2 := by
  intro h
  apply hne
  apply hinj k1 hk1 k2 hk2
  have htake := congrArg (List.take L) h
  rw [← hlen k1 hk1, List.take_left] at htake
  rw [hlen k1 hk1, ← hlen k2 hk2, List.take_left] at htake
  exact htake

theorem infixOf_append_right {p s : Str} (t : Str) (h : p <:+: s) : p <:+: s ++ t := by
  obtain ⟨u, v, rfl⟩ := h
  exact ⟨u, v ++ t, by simp⟩

theorem infixOf_append_left {p t : Str} (s : Str) (h : p <:+: t) : p <:+: s ++ t := by
  obtain ⟨u, v, rfl⟩ := h
  exact ⟨s ++ u, v, by simp⟩

theorem dropWhile_keeps_infixOf (p : Str) (hfirst : List.dropWhile goIsSpace p = p)
    (hp : p ≠ []) :
    ∀ s : Str, p <:+: s → p <:+: List.dropWhile goIsSpace s := by
  have hphead : ∀ rest : Str, List.dropWhile goIsSpace (p ++ rest) = p ++ rest := by
    intro rest
    cases p with
    | nil => exact absurd rfl hp
    | cons c p' =>
      have hc : goIsSpace c = false := by
        by_contra hct
        rw [List.dropWhile_cons, if_pos (by revert hct; cases goIsSpace c <;> simp)] at hfirst
        have := (List.dropWhile_sublist (l := p') goIsSpace).length_le
        rw [hfirst] at this
        simp at this
      rw [List.cons_append, List.dropWhile_cons, if_neg (by rw [hc]; exact Bool.false_ne_true)]
  intro s hs
  obtain ⟨u, v, rfl⟩ := hs
  induction u with
  | nil =>
    simp only [List.nil_append]
    rw [hphead v]
    exact ⟨[], v, by simp⟩
  | cons a u' ih =>
    simp only [List.cons_append]
    rw [List.dropWhile_cons]
    by_cases ha : goIsSpace a = true
    · rw [if_pos ha]
      simpa using ih
    · rw [if_neg ha]
      exact ⟨a :: u', v, by simp⟩

theorem goTrim_keeps_infixOf (p s : Str) (hp : p ≠ [])
    (h1 : List.dropWhile goIsSpace p = p)
    (h2 : List.dropWhile goIsSpace p.reverse = p.reverse)
    (h : p <:+: s) : p <:+: goTrim s := by
  unfold goTrim
  have step1 : p <:+: List.dropWhile goIsSpace s := dropWhile_keeps_infixOf p h1 hp s h
  have hrev : p.reverse <:+: (List.dropWhile goIsSpace s).reverse :=
    List.reverse_infix.mpr step1
  have step2 : p.reverse <:+:
      List.dropWhile goIsSpace (List.dropWhile goIsSpace s).reverse :=
    dropWhile_keeps_infixOf p.reverse h2 (by simpa using hp) _ hrev
  have := List.reverse_infix.mpr step2
  simpa using this

theorem imgRef_ne_nil (name : Str) : imgRef name ≠ [] := by
  simp [imgRef]

theorem imgRef_shape (name : Str) :
    imgRef name = (("![](media/").data ++ name) ++ [')'] := by
  simp [imgRef]

theorem imgRef_head_stable (name : Str) :
    List.dropWhile goIsSpace (imgRef name) = imgRef name := rfl

theorem imgRef_rev_stable (name : Str) :
    List.dropWhile goIsSpace (imgRef name).reverse = (imgRef name).reverse := by
  rw [imgRef_shape]
  exact dropWhile_rev_concat _ ')' rfl

theorem imgRef_infixOf_goTrim {name s : Str} (h : imgRef name <:+: s) :
    imgRef name <:+: goTrim s :=
  goTrim_keeps_infixOf (imgRef name) s (imgRef_ne_nil name)
    (imgRef_head_stable name) (imgRef_rev_stable name) h

/- Counter monotonicity -/

theorem processItem_c_le (env : Env) (path : Str) (st : AsmState) (it : GridItem) :
    st.c ≤ (processItem env path st it).c := by
  obtain ⟨src⟩ := it
  cases src with
  | none => exact Nat.le_refl _
  | some s =>
    unfold processItem
    simp only []
    split_ifs <;> simp

theorem foldl_processItem_c_le (env : Env) (path : Str) (items : List GridItem) :
    ∀ st : AsmState, st.c ≤ (items.foldl (processItem env path) st).c := by
  induction items with
  | nil => exact fun st => Nat.le_refl _
  | cons it its ih =>
    intro st
    exact Nat.le_trans (processItem_c_le env path st it) (ih (processItem env path st it))

theorem processNode_c_le (env : Env) (path : Str) (st : AsmState) (n : Node) :
    st.c ≤ (processNode env path st n).c := by
  cases n with
  | headerOrTitle => exact Nat.le_refl _
  | assetGrid items => exact foldl_processItem_c_le env path items st
  | other ho =>
    cases ho with
    | none => exact Nat.le_refl _
    | some h =>
      unfold processNode
      rcases hcv : env.convert h with _ | frag <;> simp [hcv]

theorem processNodes_c_le (env : Env) (path : Str) (ns : List Node) :
    ∀ st : AsmState, st.c ≤ (processNodes env path st ns).c := by
  induction ns with
  | nil => exact fun st => Nat.le_refl _
  | cons n ns ih =>
    intro st
    exact Nat.le_trans (processNode_c_le env path st n) (ih (processNode env path st n))

theorem processEntry_c_le (env : Env) (path : Str) (doc : EntryDoc) (c0 : Nat) :
    c0 ≤ (processEntry env path doc c0).2 := by
  unfold processEntry
  by_cases h1 : goTrim doc.pageHeader = []
  · rw [if_pos h1]
  · rw [if_neg h1]
    rcases parseAppleDate (goTrim doc.pageHeader) with ⟨t, o⟩
    cases o with
    | some m => exact Nat.le_refl _
    | none =>
      simp only []
      have := processNodes_c_le env path doc.children ⟨c0, [], []⟩
      split_ifs <;> exact this

theorem driverStep_c_le (env : Env) (st : RunState) (it : DriverItem) :
    st.c ≤ (driverStep env st it).c := by
  unfold driverStep
  by_cases hw : it.walkErr = true
  · rw [if_pos hw]
  · rw [if_neg hw]
    by_cases hd :
        (it.isDir || !(List.isSuffixOf ((".html").data) ((goBase it.path).map toLowerCh)))
          = true
    · rw [if_pos hd]
    · rw [if_neg hd]
      have hle := processEntry_c_le env it.path it.doc st.c
      rcases hpe : processEntry env it.path it.doc st.c with ⟨res, c'⟩
      rw [hpe] at hle
      cases res with
      | error err => exact hle
      | ok e => exact hle

theorem foldl_driverStep_c_le (env : Env) (items : List DriverItem) :
    ∀ st : RunState, st.c ≤ (items.foldl (driverStep env) st).c := by
  induction items with
  | nil => exact fun st => Nat.le_refl _
  | cons it its ih =>
    intro st
    exact Nat.le_trans (driverStep_c_le env st it) (ih (driverStep env st it))

/-- The invariant of the body-assembly loop: every media value was assigned
from a UUID with index in `[a, st.c)`, the assigned values are pairwise
distinct, and each one is referenced by an image fragment in the builder. -/
def MediaInv (gen : Nat → Str) (a : Nat) (st : AsmState) : Prop :=
  (∀ pr ∈ st.media, ∃ k t, a ≤ k ∧ k < st.c ∧ pr.2 = gen k ++ '-' :: t)
  ∧ ((st.media.map Prod.snd).Pairwise (· ≠ ·))
  ∧ (∀ pr ∈ st.media, imgRef pr.2 <:+: st.text)

theorem processItem_inv (env : Env) (path : Str) (N L a : Nat)
    (hinj : ∀ k1, k1 < N → ∀ k2, k2 < N → env.gen k1 = env.gen k2 → k1 = k2)
    (hlen : ∀ k, k < N → (env.gen k).length = L)
    (st : AsmState) (it : GridItem)
    (hN : (processItem env path st it).c ≤ N) (ha : a ≤ st.c)
    (hinv : MediaInv env.gen a st) :
    MediaInv env.gen a (processItem env path st it)
      ∧ a ≤ (processItem env path st it).c := by
  refine ⟨?_, Nat.le_trans ha (processItem_c_le env path st it)⟩
  obtain ⟨src⟩ := it
  cases src with
  | none => exact hinv
  | some s =>
    unfold processItem at hN ⊢
    simp only [] at hN ⊢
    by_cases hfs : env.fs (goClean (goJoin2 (goDir path) s)) = true
    · rw [if_pos hfs] at hN ⊢
      obtain ⟨hstamp, hpw, href⟩ := hinv
      have hcN : st.c < N := by
        simp only [] at hN
        omega
      refine ⟨?_, ?_, ?_⟩
      · intro pr hpr
        rcases mediaInsert_mem hpr with h1 | rfl
        · obtain ⟨k, t, hak, hkc, hshape⟩ := hstamp pr h1
          exact ⟨k, t, hak, Nat.lt_succ_of_lt hkc, hshape⟩
        · exact ⟨st.c, goBase s, ha, Nat.lt_succ_self _, rfl⟩
      · apply mediaInsert_values_pairwise hpw
        intro w hw
        rcases List.mem_map.mp hw with ⟨pr, hpr, rfl⟩
        obtain ⟨k, t, hak, hkc, hshape⟩ := hstamp pr hpr
        rw [hshape]
        exact stamp_ne env.gen L N hinj hlen
          (Nat.lt_of_lt_of_le hkc (Nat.le_of_lt hcN)) hcN (Nat.ne_of_lt hkc)
      · intro pr hpr
        rcases mediaInsert_mem hpr with h1 | rfl
        · exact infixOf_append_right _ (infixOf_append_right _ (href pr h1))
        · exact infixOf_append_right _ (infixOf_append_left st.text ⟨[], [], by simp⟩)
    · rw [if_neg hfs] at hN ⊢
      obtain ⟨hstamp, hpw, href⟩ := hinv
      refine ⟨fun pr hpr => ?_, hpw, href⟩
      obtain ⟨k, t, hak, hkc, hshape⟩ := hstamp pr hpr
      exact ⟨k, t, hak, Nat.lt_succ_of_lt hkc, hshape⟩

theorem foldl_items_inv (env : Env) (path : Str) (N L a : Nat)
    (hinj : ∀ k1, k1 < N → ∀ k2, k2 < N → env.gen k1 = env.gen k2 → k1 = k2)
    (hlen : ∀ k, k < N → (env.gen k).length = L) (items : List GridItem) :
    ∀ st : AsmState, (items.foldl (processItem env path) st).c ≤ N → a ≤ st.c →
      MediaInv env.gen a st →
      MediaInv env.gen a (items.foldl (processItem env path) st) := by
  induction items with
  | nil => exact fun st _ _ h => h
  | cons it its ih =>
    intro st hN ha hinv
    rw [List.foldl_cons] at hN ⊢
    have hN1 : (processItem env path st it).c ≤ N :=
      Nat.le_trans (foldl_processItem_c_le env path its _) hN
    obtain ⟨hinv1, ha1⟩ := processItem_inv env path N L a hinj hlen st it hN1 ha hinv
    exact ih _ hN ha1 hinv1

theorem processNode_inv (env : Env) (path : Str) (N L a : Nat)
    (hinj : ∀ k1, k1 < N → ∀ k2, k2 < N → env.gen k1 = env.gen k2 → k1 = k2)
    (hlen : ∀ k, k < N → (env.gen k).length = L)
    (st : AsmState) (n : Node)
    (hN : (processNode env path st n).c ≤ N) (ha : a ≤ st.c)
    (hinv : MediaInv env.gen a st) :
    MediaInv env.gen a (processNode env path st n) := by
  cases n with
  | headerOrTitle => exact hinv
  | assetGrid items => exact foldl_items_inv env path N L a hinj hlen items st hN ha hinv
  | other ho =>
    cases ho with
    | none => exact hinv
    | some h =>
      show MediaInv env.gen a
        (match env.convert h with
          | none => st
          | some frag =>
            { st with text := st.text ++ goTrim frag ++ ['\n', '\n'] })
      rcases hcv : env.convert h with _ | frag
      · exact hinv
      · exact ⟨hinv.1, hinv.2.1, fun pr hpr =>
          infixOf_append_right _ (infixOf_append_right _ (hinv.2.2 pr hpr))⟩

theorem processNodes_inv (env : Env) (path : Str) (N L a : Nat)
    (hinj : ∀ k1, k1 < N → ∀ k2, k2 < N → env.gen k1 = env.gen k2 → k1 = k2)
    (hlen : ∀ k, k < N → (env.gen k).length = L) (ns : List Node) :
    ∀ st : AsmState, (processNodes env path st ns).c ≤ N → a ≤ st.c →
      MediaInv env.gen a st → MediaInv env.gen a (processNodes env path st ns) := by
  induction ns with
  | nil => exact fun st _ _ h => h
  | cons n ns ih =>
    intro st hN ha hinv
    have hfold : processNodes env path st (n :: ns)
        = processNodes env path (processNode env path st n) ns := rfl
    rw [hfold] at hN ⊢
    have hN1 : (processNode env path st n).c ≤ N :=
      Nat.le_trans (processNodes_c_le env path ns _) hN
    have hinv1 := processNode_inv env path N L a hinj hlen st n hN1 ha hinv
    exact ih _ hN (Nat.le_trans ha (processNode_c_le env path st n)) hinv1

theorem processEntry_media (env : Env) (path : Str) (doc : EntryDoc) (c0 N L : Nat)
    (hinj : ∀ k1, k1 < N → ∀ k2, k2 < N → env.gen k1 = env.gen k2 → k1 = k2)
    (hlen : ∀ k, k < N → (env.gen k).length = L)
    (hN : (processEntry env path doc c0).2 ≤ N) (e : MarkdownEntry)
    (he : (processEntry env path doc c0).1 = .ok e) :
    (∀ pr ∈ e.media, ∃ k t, c0 ≤ k ∧ k < (processEntry env path doc c0).2
        ∧ pr.2 = env.gen k ++ '-' :: t)
    ∧ ((e.media.map Prod.snd).Pairwise (· ≠ ·))
    ∧ (∀ pr ∈ e.media, imgRef pr.2 <:+: e.markdownText) := by
  unfold processEntry at hN he ⊢
  by_cases h1 : goTrim doc.pageHeader = []
  · simp [h1] at he
  · rw [if_neg h1] at hN he ⊢
    rcases hpd : parseAppleDate (goTrim doc.pageHeader) with ⟨t, o⟩
    rw [hpd] at hN he
    cases o with
    | some m => simp at he
    | none =>
      simp only [] at hN he ⊢
      by_cases hc : entryText (entryTitle path doc)
            (goTrim (processNodes env path ⟨c0, [], []⟩ doc.children).text) = []
          ∧ (processNodes env path ⟨c0, [], []⟩ doc.children).media = []
      · rw [if_pos hc] at he
        simp at he
      · rw [if_neg hc] at hN he ⊢
        simp only [Except.ok.injEq] at he
        subst he
        have hinv0 : MediaInv env.gen c0 ⟨c0, [], []⟩ :=
          ⟨fun pr hpr => absurd hpr (List.not_mem_nil pr), List.Pairwise.nil,
           fun pr hpr => absurd hpr (List.not_mem_nil pr)⟩
        have hinv := processNodes_inv env path N L c0 hinj hlen doc.children
          ⟨c0, [], []⟩ hN (Nat.le_refl c0) hinv0
        refine ⟨hinv.1, hinv.2.1, ?_⟩
        intro pr hpr
        have htrim := imgRef_infixOf_goTrim (hinv.2.2 pr hpr)
        show imgRef pr.2 <:+: entryText (entryTitle path doc)
          (goTrim (processNodes env path ⟨c0, [], []⟩ doc.children).text)
        unfold entryText
        split_ifs with hti
        · have hshape : '#' :: ' ' :: (entryTitle path doc
              ++ '\n' :: '\n' :: goTrim (processNodes env path ⟨c0, [], []⟩ doc.children).text)
              = ['#', ' '] ++ (entryTitle path doc
                ++ (['\n', '\n'] ++ goTrim (processNodes env path ⟨c0, [], []⟩ doc.children).text)) := by
            simp
          rw [hshape]
          exact infixOf_append_left _ (infixOf_append_left _ (infixOf_append_left _ htrim))
        · exact htrim

theorem driverStep_inv (env : Env) (N L : Nat)
    (hinj : ∀ k1, k1 < N → ∀ k2, k2 < N → env.gen k1 = env.gen k2 → k1 = k2)
    (hlen : ∀ k, k < N → (env.gen k).length = L) (st : RunState) (it : DriverItem)
    (hcN : (driverStep env st it).c ≤ N)
    (hstamp : ∀ v ∈ allMediaNames st.entries, ∃ k t, k < st.c ∧ v = env.gen k ++ '-' :: t)
    (hpw : (allMediaNames st.entries).Pairwise (· ≠ ·))
    (href : ∀ e ∈ st.entries, ∀ pr ∈ e.media, imgRef pr.2 <:+: e.markdownText) :
    (∀ v ∈ allMediaNames (driverStep env st it).entries,
        ∃ k t, k < (driverStep env st it).c ∧ v = env.gen k ++ '-' :: t)
    ∧ ((allMediaNames (driverStep env st it).entries).Pairwise (· ≠ ·))
    ∧ (∀ e ∈ (driverStep env st it).entries,
        ∀ pr ∈ e.media, imgRef pr.2 <:+: e.markdownText) := by
  unfold driverStep at hcN ⊢
  by_cases hw : it.walkErr = true
  · rw [if_pos hw] at hcN ⊢
    exact ⟨hstamp, hpw, href⟩
  · rw [if_neg hw] at hcN ⊢
    by_cases hd :
        (it.isDir || !(List.isSuffixOf ((".html").data) ((goBase it.path).map toLowerCh)))
          = true
    · rw [if_pos hd] at hcN ⊢
      exact ⟨hstamp, hpw, href⟩
    · rw [if_neg hd] at hcN ⊢
      have hle := processEntry_c_le env it.path it.doc st.c
      have hme := processEntry_media env it.path it.doc st.c N L hinj hlen
      rcases hpe : processEntry env it.path it.doc st.c with ⟨res, c'⟩
      rw [hpe] at hle hme hcN
      cases res with
      | error err =>
        refine ⟨fun v hv => ?_, hpw, href⟩
        obtain ⟨k, t, hk, hs⟩ := hstamp v hv
        exact ⟨k, t, Nat.lt_of_lt_of_le hk hle, hs⟩
      | ok e =>
        simp only [] at hcN ⊢
        have hc'N : c' ≤ N := hcN
        obtain ⟨hestamp, hepw, heref⟩ := hme hc'N e rfl
        have hsplit : allMediaNames (st.entries ++ [e])
            = allMediaNames st.entries ++ e.media.map Prod.snd := by
          simp [allMediaNames]
        refine ⟨?_, ?_, ?_⟩
        · intro v hv
          rw [hsplit] at hv
          rcases List.mem_append.mp hv with h1 | h2
          · obtain ⟨k, t, hk, hs⟩ := hstamp v h1
            exact ⟨k, t, Nat.lt_of_lt_of_le hk hle, hs⟩
          · rcases List.mem_map.mp h2 with ⟨pr, hpr, rfl⟩
            obtain ⟨k, t, _, hk2, hs⟩ := hestamp pr hpr
            exact ⟨k, t, hk2, hs⟩
        · rw [hsplit]
          refine List.pairwise_append.mpr ⟨hpw, hepw, ?_⟩
          intro v1 hv1 v2 hv2
          obtain ⟨k1, t1, hk1, hs1⟩ := hstamp v1 hv1
          rcases List.mem_map.mp hv2 with ⟨pr, hpr, rfl⟩
          obtain ⟨k2, t2, hk2a, hk2b, hs2⟩ := hestamp pr hpr
          rw [hs1, hs2]
          have hk1N : k1 < N := by omega
          have hk2N : k2 < N := by omega
          exact stamp_ne env.gen L N hinj hlen hk1N hk2N (by omega)
        · intro f hf
          rcases List.mem_append.mp hf with h1 | h2
          · exact href f h1
          · rw [List.mem_singleton.mp h2]
            exact heref

theorem driver_inv (env : Env) (items : List DriverItem) (N L : Nat)
    (hinj : ∀ k1, k1 < N → ∀ k2, k2 < N → env.gen k1 = env.gen k2 → k1 = k2)
    (hlen : ∀ k, k < N → (env.gen k).length = L) :
    ∀ st : RunState, (items.foldl (driverStep env) st).c ≤ N →
      (∀ v ∈ allMediaNames st.entries, ∃ k t, k < st.c ∧ v = env.gen k ++ '-' :: t) →
      ((allMediaNames st.entries).Pairwise (· ≠ ·)) →
      (∀ e ∈ st.entries, ∀ pr ∈ e.media, imgRef pr.2 <:+: e.markdownText) →
      ((∀ v ∈ allMediaNames (items.foldl (driverStep env) st).entries,
          ∃ k t, k < (items.foldl (driverStep env) st).c ∧ v = env.gen k ++ '-' :: t)
        ∧ ((allMediaNames (items.foldl (driverStep env) st).entries).Pairwise (· ≠ ·))
        ∧ (∀ e ∈ (items.foldl (driverStep env) st).entries,
            ∀ pr ∈ e.media, imgRef pr.2 <:+: e.markdownText)) := by
  induction items with
  | nil => exact fun st _ h1 h2 h3 => ⟨h1, h2, h3⟩
  | cons it its ih =>
    intro st hN hstamp hpw href
    rw [List.foldl_cons] at hN ⊢
    have hcN : (driverStep env st it).c ≤ N :=
      Nat.le_trans (foldl_driverStep_c_le env its _) hN
    obtain ⟨h1, h2, h3⟩ := driverStep_inv env N L hinj hlen st it hcN hstamp hpw href
    exact ih (driverStep env st it) hN h1 h2 h3

/-- C1 counterexample: one entry referencing the same source image twice.
The extraction succeeds, the body contains the image reference
`![](media/0-p.jpg)` generated for the first occurrence, but the
`mediaReferences` map retains only the second occurrence's name "1-p.jpg",
so the first referenced name is absent from the mapping's values. -/
def docC1 : EntryDoc :=
  { pageHeader := ("Tuesday, December 12, 2023").data,
    titleSpan := none,
    children := [Node.assetGrid [⟨some (("p.jpg").data)⟩, ⟨some (("p.jpg").data)⟩]] }

theorem media_reference_overwritten_counterexample :
    ((processEntry envID (("/e/a.html").data) docC1 0).1).isOk = true
    ∧ imgRef (("0-p.jpg").data) <:+: exText ((processEntry envID (("/e/a.html").data) docC1 0).1)
    ∧ (("0-p.jpg").data : Str) ∉ exMediaNames ((processEntry envID (("/e/a.html").data) docC1 0).1)
    ∧ exMediaNames ((processEntry envID (("/e/a.html").data) docC1 0).1)
        = [("1-p.jpg").data] := by
  decide

/-- C1 as amended: provided the UUID supply is injective and fixed-length on
the indices the run consumes, the media output names assigned across the
whole run are pairwise distinct, and every name recorded in an entry's
mediaReferences is referenced by an image fragment in that entry's body
Markdown. (When one source path is referenced more than once within an
entry, only the last generated name is retained in the mapping, so earlier
body references point at names absent from it — see the counterexample.) -/
theorem media_names_unique (env : Env) (items : List DriverItem) (c0 L : Nat)
    (hinj : ∀ k1, k1 < (runConvert env items c0).c →
      ∀ k2, k2 < (runConvert env items c0).c → env.gen k1 = env.gen k2 → k1 = k2)
    (hlen : ∀ k, k < (runConvert env items c0).c → (env.gen k).length = L) :
    ((allMediaNames (runConvert env items c0).entries).Pairwise (· ≠ ·))
    ∧ (∀ e ∈ (runConvert env items c0).entries,
        ∀ pr ∈ e.media, imgRef pr.2 <:+: e.markdownText) := by
  have h := driver_inv env items ((runConvert env items c0).c) L hinj hlen
    ⟨c0, 0, 0, []⟩ (Nat.le_refl _)
    (by intro v hv; simp [allMediaNames] at hv)
    (by simp [allMediaNames])
    (by intro e he; simp at he)
  exact ⟨h.2.1, h.2.2⟩

def itemC1w : DriverItem :=
  { path := ("/e/a.html").data, isDir := false, walkErr := false,
    doc := { pageHeader := ("Tuesday, December 12, 2023").data,
             titleSpan := none,
             children := [Node.assetGrid [⟨some (("p.jpg").data)⟩, ⟨some (("q.jpg").data)⟩]] },
    saveOk := true }

theorem media_names_unique_witness :
    (allMediaNames (runConvert envID [itemC1w] 0).entries).Pairwise (· ≠ ·) :=
  (media_names_unique envID [itemC1w] 0 1 (by decide) (by decide)).1

end AppleJournal
